import Mathlib

/-!
# redfox `rv`: the service-discovery loop of `cmd/rv/rv.go`

A shallow embedding of the discovery loop in the `app.Action` closure of
`main` (rv.go lines 100-132) and theorems about it.

* Go strings are Lean `String`s (MQTT topic names are UTF-8 text, and the
  separator `/` is one ASCII byte, so splitting characters and splitting
  bytes agree); `strings.Split(_, "/")` is `Split`.
* A Go `map[string]V` is an association list with at most one entry per key
  (`mapGet`, `mapSet`); the registry `services` is a
  `map[string]map[string]bool`.
* `json.Unmarshal` into a `zerosvc.Heartbeat` belongs to libraries outside
  the repository, so it is a parameter `unmarshal` of the loop body: it
  returns `none` where Go returns a non-nil `err`.
* One pass of the `for` loop is `iteration`, driven by which `select` case
  was taken (`Select`).  Logging writes to stderr only and is not part of
  the state.
-/

namespace Redfox

/-! ## Go maps -/

/-- Go's `m[k]` read with the comma-ok form: `none` when the key is absent. -/
def mapGet {V : Type} : List (String × V) → String → Option V
  | [], _ => none
  | (k', v') :: m, k => if k' = k then some v' else mapGet m k

/-- Go's `m[k] = v`: replaces the entry of `k` when there is one, adds one
otherwise. -/
def mapSet {V : Type} : List (String × V) → String → V → List (String × V)
  | [], k, v => [(k, v)]
  | (k', v') :: m, k, v => if k' = k then (k, v) :: m else (k', v') :: mapSet m k v

/-- The type of `services`: `map[string]map[string]bool`. -/
abbrev Registry := List (String × List (String × Bool))

/-- Host `h` is a key of the host set stored under service `s` (what the
report loop at rv.go lines 133-138 prints under `s`). -/
def hasHost (services : Registry) (s h : String) : Bool :=
  match mapGet services s with
  | some hosts => (mapGet hosts h).isSome
  | none => false

/-! ## Events and the heartbeat record -/

/-- The fields of a `zerosvc.Event` the loop reads. -/
structure Event where
  RoutingKey : String
  Body : String
deriving DecidableEq, Repr

/-- The part of `zerosvc.Heartbeat` the loop reads: the keys of the
`Services` map, in the order the `range` statement visits them. -/
structure Heartbeat where
  Services : List String
deriving DecidableEq, Repr

/-! ## `strings.Split(key, "/")` -/

/-- Splitting a character sequence at every `'/'`: one more piece than there
are separators. -/
def splitSlash : List Char → List (List Char)
  | [] => [[]]
  | c :: cs =>
    if c = '/' then [] :: splitSlash cs
    else
      match splitSlash cs with
      | seg :: rest => (c :: seg) :: rest
      | [] => [[c]]

/-- Go's `strings.Split(s, "/")`. -/
def Split (s : String) : List String :=
  (splitSlash s.data).map String.mk

/-- Lines 108-112: `path := strings.Split(ev.RoutingKey, "/")` followed by
`fqdn := path[len(path)-1]`; `none` stands for the index-out-of-range
panic.  The `len(path) < 2` test in between only logs. -/
def fqdnOf (RoutingKey : String) : Option String :=
  let path := Split RoutingKey
  path[path.length - 1]?

/-! ## The loop body -/

/-- Lines 121-124, the body of `for k, _ := range hb.Services`. -/
def announce (fqdn : String) (services : Registry) (k : String) : Registry :=
  match mapGet services k with
  | some _ => services
  | none =>
    let services := mapSet services k []
    match mapGet services k with
    | some hosts => mapSet services k (mapSet hosts fqdn true)
    | none => services

/-- Lines 108-126, the `case ev := <-ch` branch, as a function of the
registry.  `none` is a panic; a decode error leaves through `continue`. -/
def onEvent (unmarshal : String → Option Heartbeat) (services : Registry)
    (ev : Event) : Option Registry :=
  match fqdnOf ev.RoutingKey with
  | none => none
  | some fqdn =>
    match unmarshal ev.Body with
    | none => some services
    | some hb => some (hb.Services.foldl (announce fqdn) services)

/-- The event branch folded over a sequence of events. -/
def foldEvents (unmarshal : String → Option Heartbeat) :
    Registry → List Event → Option Registry
  | services, [] => some services
  | services, ev :: evs =>
    match onEvent unmarshal services ev with
    | none => none
    | some services' => foldEvents unmarshal services' evs

/-- The variables the loop carries from one pass to the next. -/
structure LoopState where
  services : Registry
  exit : Bool
deriving DecidableEq, Repr

/-- Which case of the `select` at line 106 was taken. -/
inductive Select where
  | ev (e : Event)
  | idle
  | total
deriving DecidableEq, Repr

/-- One pass through the `select` (lines 106-131). -/
def iteration (unmarshal : String → Option Heartbeat) (st : LoopState) :
    Select → Option LoopState
  | Select.ev e =>
    match onEvent unmarshal st.services e with
    | none => none
    | some services' => some { st with services := services' }
  | Select.idle => some { st with exit := true }
  | Select.total => some { st with exit := true }

/-- The `for` loop (lines 104-132) over the sequence of `select` outcomes:
`if exit {break}` is tested first in every pass. -/
def loop (unmarshal : String → Option Heartbeat) :
    LoopState → List Select → Option LoopState
  | st, [] => some st
  | st, w :: ws =>
    if st.exit then some st
    else
      match iteration unmarshal st w with
      | none => none
      | some st' => loop unmarshal st' ws

/-- The state before the first pass (lines 100-102). -/
def initial : LoopState := { services := [], exit := false }

/-! ## Concrete payloads for the worked examples -/

/-- The JSON text with `services` `web`. -/
def webBody : String := "\x7b\"services\":\x7b\"web\":\x7b\x7d\x7d\x7d"

/-- The JSON text with `services` `web` and `db`. -/
def webDbBody : String := "\x7b\"services\":\x7b\"web\":\x7b\x7d,\"db\":\x7b\x7d\x7d\x7d"

/-- A decoder that knows the two payloads above and rejects every other
body; it stands in for `json.Unmarshal` in the worked examples. -/
def sampleUnmarshal (body : String) : Option Heartbeat :=
  if body = webBody then some { Services := ["web"] }
  else if body = webDbBody then some { Services := ["web", "db"] }
  else none

/-- Event `e` decodes and has `s` among the keys of its services map. -/
def announces (unmarshal : String → Option Heartbeat) (s : String) (e : Event) : Bool :=
  match unmarshal e.Body with
  | some hb => decide (s ∈ hb.Services)
  | none => false

/-- The host set the loop stores for a service first announced by `e`. -/
def firstHosts (e : Event) : Option (List (String × Bool)) :=
  (fqdnOf e.RoutingKey).map (fun h => [(h, true)])

/-- A heartbeat event the listener accepts: the routing key has at least two
segments and the payload decodes. -/
def validEvent (unmarshal : String → Option Heartbeat) (e : Event) : Bool :=
  decide (2 ≤ (Split e.RoutingKey).length) && (unmarshal e.Body).isSome

/-- The last path segment of a routing key in the words of the
specification: the text after the last `'/'`, the whole key when it has
none.  It is read off the characters from the right end and does not go
through `Split`. -/
def afterLastSlash (key : String) : String :=
  String.mk (key.data.reverse.takeWhile (fun c => c != '/')).reverse

/-! ## Lemmas on maps -/

theorem mapGet_mapSet_same {V : Type} (m : List (String × V)) (k : String) (v : V) :
    mapGet (mapSet m k v) k = some v := by
  induction m with
  | nil => simp [mapSet, mapGet]
  | cons p m ih =>
    obtain ⟨k', v'⟩ := p
    by_cases h : k' = k
    · simp [mapSet, mapGet, h]
    · simp [mapSet, mapGet, h, ih]

theorem mapGet_mapSet_ne {V : Type} (m : List (String × V)) (k k' : String) (v : V)
    (hne : k ≠ k') : mapGet (mapSet m k v) k' = mapGet m k' := by
  induction m with
  | nil => simp [mapSet, mapGet, hne]
  | cons p m ih =>
    obtain ⟨k0, v0⟩ := p
    by_cases h : k0 = k
    · subst h
      simp [mapSet, mapGet, hne]
    · by_cases h2 : k0 = k'
      · subst h2
        simp [mapSet, mapGet, h]
      · simp [mapSet, mapGet, h, h2, ih]

theorem mapSet_mapSet_same {V : Type} (m : List (String × V)) (k : String) (v w : V) :
    mapSet (mapSet m k v) k w = mapSet m k w := by
  induction m with
  | nil => simp [mapSet]
  | cons p m ih =>
    obtain ⟨k0, v0⟩ := p
    by_cases h : k0 = k
    · simp [mapSet, h]
    · simp [mapSet, h, ih]

/-! ## Lemmas on `announce` -/

theorem announce_of_present (fqdn : String) (services : Registry) (k : String)
    (hosts : List (String × Bool)) (h : mapGet services k = some hosts) :
    announce fqdn services k = services := by
  simp [announce, h]

theorem announce_of_absent (fqdn : String) (services : Registry) (k : String)
    (h : mapGet services k = none) :
    announce fqdn services k = mapSet services k [(fqdn, true)] := by
  simp [announce, h, mapGet_mapSet_same, mapSet_mapSet_same, mapSet]

theorem mapGet_announce (fqdn : String) (services : Registry) (k s : String) :
    mapGet (announce fqdn services k) s =
      match mapGet services s with
      | some hosts => some hosts
      | none => if k = s then some [(fqdn, true)] else none := by
  cases hk : mapGet services k with
  | some hosts =>
    rw [announce_of_present fqdn services k hosts hk]
    cases hs : mapGet services s with
    | some hs' => rfl
    | none =>
      have hne : k ≠ s := by
        intro heq
        rw [heq, hs] at hk
        cases hk
      simp [hne]
  | none =>
    rw [announce_of_absent fqdn services k hk]
    by_cases heq : k = s
    · subst heq
      simp [mapGet_mapSet_same, hk]
    · rw [mapGet_mapSet_ne _ _ _ _ heq]
      cases hs : mapGet services s <;> simp [heq]

theorem mapGet_foldl_announce (fqdn : String) (ks : List String) (services : Registry)
    (s : String) :
    mapGet (ks.foldl (announce fqdn) services) s =
      match mapGet services s with
      | some hosts => some hosts
      | none => if s ∈ ks then some [(fqdn, true)] else none := by
  induction ks generalizing services with
  | nil => cases h : mapGet services s <;> simp [h]
  | cons k ks ih =>
    rw [List.foldl_cons, ih, mapGet_announce]
    cases hs : mapGet services s with
    | some hosts => rfl
    | none =>
      by_cases heq : k = s
      · simp [heq]
      · have heq' : ¬ s = k := fun h => heq h.symm
        simp [heq, heq']

theorem foldl_announce_of_present (fqdn : String) (ks : List String) (services : Registry)
    (h : ∀ k ∈ ks, (mapGet services k).isSome = true) :
    ks.foldl (announce fqdn) services = services := by
  induction ks with
  | nil => rfl
  | cons k ks ih =>
    have hk := h k (List.mem_cons_self k ks)
    obtain ⟨hosts, hh⟩ := Option.isSome_iff_exists.mp hk
    rw [List.foldl_cons, announce_of_present fqdn services k hosts hh]
    exact ih (fun k' hk' => h k' (List.mem_cons_of_mem k hk'))

/-! ## Lemmas on `Split` -/

theorem splitSlash_ne_nil (cs : List Char) : splitSlash cs ≠ [] := by
  cases cs with
  | nil => simp [splitSlash]
  | cons c cs =>
    by_cases h : c = '/'
    · simp [splitSlash, h]
    · cases hs : splitSlash cs <;> simp [splitSlash, h, hs]

theorem splitSlash_of_not_mem (cs : List Char) (h : '/' ∉ cs) : splitSlash cs = [cs] := by
  induction cs with
  | nil => rfl
  | cons c cs ih =>
    have hc : c ≠ '/' := fun e => h (by simp [e])
    have hcs : '/' ∉ cs := fun e => h (List.mem_cons_of_mem c e)
    simp [splitSlash, hc, ih hcs]

theorem splitSlash_append_slash (pre suf : List Char) :
    splitSlash (pre ++ '/' :: suf) = splitSlash pre ++ splitSlash suf := by
  induction pre with
  | nil => simp [splitSlash]
  | cons c pre ih =>
    by_cases hc : c = '/'
    · simp [splitSlash, hc, ih]
    · cases hs : splitSlash pre with
      | nil => exact absurd hs (splitSlash_ne_nil pre)
      | cons seg rest => simp [splitSlash, hc, ih, hs]

theorem getLast?_splitSlash_append (pre suf : List Char) (h : '/' ∉ suf) :
    (splitSlash (pre ++ '/' :: suf)).getLast? = some suf := by
  rw [splitSlash_append_slash, splitSlash_of_not_mem suf h]
  simp

theorem fqdnOf_eq_getLast? (key : String) :
    fqdnOf key = ((splitSlash key.data).getLast?).map String.mk := by
  simp [fqdnOf, Split, List.getLast?_eq_getElem?]

theorem fqdnOf_isSome (key : String) : ∃ h, fqdnOf key = some h := by
  rw [fqdnOf_eq_getLast?]
  cases hs : (splitSlash key.data).getLast? with
  | none => exact absurd (List.getLast?_eq_none_iff.mp hs) (splitSlash_ne_nil _)
  | some seg => exact ⟨String.mk seg, rfl⟩

theorem getLast?_splitSlash (cs : List Char) :
    (splitSlash cs).getLast? =
      some (cs.reverse.takeWhile (fun c => c != '/')).reverse := by
  have hsplit := List.takeWhile_append_dropWhile (fun c => c != '/') cs.reverse
  have htw : '/' ∉ (cs.reverse.takeWhile (fun c => c != '/')).reverse := by
    intro hmem
    have := List.mem_takeWhile_imp (List.mem_reverse.mp hmem)
    simp at this
  cases hd : cs.reverse.dropWhile (fun c => c != '/') with
  | nil =>
    rw [hd, List.append_nil] at hsplit
    rw [hsplit, List.reverse_reverse] at htw ⊢
    rw [splitSlash_of_not_mem cs htw]
    rfl
  | cons d rest =>
    have hd0 : d = '/' := by
      have h := List.head?_dropWhile_not (fun c => c != '/') cs.reverse
      rw [hd] at h
      simpa using h
    subst hd0
    rw [hd] at hsplit
    have hcs : cs = rest.reverse ++
        '/' :: (cs.reverse.takeWhile (fun c => c != '/')).reverse := by
      have h2 := congrArg List.reverse hsplit
      rw [List.reverse_reverse] at h2
      exact h2.symm.trans (by simp)
    have hgoal := getLast?_splitSlash_append rest.reverse _ htw
    rw [← hcs] at hgoal
    exact hgoal

theorem fqdnOf_eq_afterLastSlash (key : String) :
    fqdnOf key = some (afterLastSlash key) := by
  rw [fqdnOf_eq_getLast?, getLast?_splitSlash]
  rfl

theorem afterLastSlash_append (pre suf : String) (h : '/' ∉ suf.data) :
    afterLastSlash (pre ++ "/" ++ suf) = suf := by
  have h1 := fqdnOf_eq_afterLastSlash (pre ++ "/" ++ suf)
  have hd : (pre ++ "/" ++ suf).data = pre.data ++ '/' :: suf.data := by
    simp [String.data_append]
  rw [fqdnOf_eq_getLast?, hd, getLast?_splitSlash_append pre.data suf.data h] at h1
  exact (Option.some.inj h1).symm

theorem afterLastSlash_of_not_mem (key : String) (h : '/' ∉ key.data) :
    afterLastSlash key = key := by
  have h1 := fqdnOf_eq_afterLastSlash key
  rw [fqdnOf_eq_getLast?, splitSlash_of_not_mem key.data h] at h1
  exact (Option.some.inj h1).symm

theorem onEvent_of_fqdn (unmarshal : String → Option Heartbeat) (services : Registry)
    (ev : Event) (fqdn : String) (h : fqdnOf ev.RoutingKey = some fqdn) :
    onEvent unmarshal services ev =
      match unmarshal ev.Body with
      | none => some services
      | some hb => some (hb.Services.foldl (announce fqdn) services) := by
  simp [onEvent, h]

theorem mapGet_onEvent (unmarshal : String → Option Heartbeat) (services services' : Registry)
    (ev : Event) (fqdn s : String) (hf : fqdnOf ev.RoutingKey = some fqdn)
    (h : onEvent unmarshal services ev = some services') :
    mapGet services' s =
      match mapGet services s with
      | some hosts => some hosts
      | none => if announces unmarshal s ev = true then some [(fqdn, true)] else none := by
  rw [onEvent_of_fqdn unmarshal services ev fqdn hf] at h
  cases hu : unmarshal ev.Body with
  | none =>
    rw [hu] at h
    cases h
    cases hs : mapGet services s <;> simp [announces, hu]
  | some hb =>
    rw [hu] at h
    cases h
    rw [mapGet_foldl_announce]
    cases hs : mapGet services s <;> simp [announces, hu]

theorem onEvent_total (unmarshal : String → Option Heartbeat) (services : Registry)
    (ev : Event) : ∃ services', onEvent unmarshal services ev = some services' := by
  obtain ⟨fqdn, hf⟩ := fqdnOf_isSome ev.RoutingKey
  rw [onEvent_of_fqdn unmarshal services ev fqdn hf]
  cases unmarshal ev.Body with
  | none => exact ⟨_, rfl⟩
  | some hb => exact ⟨_, rfl⟩

theorem mapGet_onEvent_of_present (unmarshal : String → Option Heartbeat)
    (services services' : Registry) (ev : Event) (s : String) (hosts : List (String × Bool))
    (h : onEvent unmarshal services ev = some services')
    (hs : mapGet services s = some hosts) : mapGet services' s = some hosts := by
  obtain ⟨fqdn, hf⟩ := fqdnOf_isSome ev.RoutingKey
  rw [mapGet_onEvent unmarshal services services' ev fqdn s hf h, hs]

theorem mapGet_foldEvents (unmarshal : String → Option Heartbeat) (evs : List Event)
    (services : Registry) :
    ∃ services', foldEvents unmarshal services evs = some services' ∧
      ∀ s, mapGet services' s =
        match mapGet services s with
        | some hosts => some hosts
        | none => (evs.find? (announces unmarshal s)).bind firstHosts := by
  induction evs generalizing services with
  | nil =>
    refine ⟨services, rfl, fun s => ?_⟩
    cases mapGet services s <;> simp
  | cons e evs ih =>
    obtain ⟨s1, h1⟩ := onEvent_total unmarshal services e
    obtain ⟨s2, h2, hget⟩ := ih s1
    obtain ⟨fqdn, hf⟩ := fqdnOf_isSome e.RoutingKey
    refine ⟨s2, by simp [foldEvents, h1, h2], fun s => ?_⟩
    rw [hget s, mapGet_onEvent unmarshal services s1 e fqdn s hf h1]
    cases hs : mapGet services s with
    | some hosts => rfl
    | none =>
      by_cases ha : announces unmarshal s e = true
      · simp [ha, List.find?_cons, firstHosts, hf]
      · simp [ha, List.find?_cons]

/-! ## The claims -/

/-- C9: host extraction is total and verbatim.  For every routing key the
split is non-empty, so the index `len(path)-1` is in bounds and `fqdn` is
defined; it is the text after the last `'/'`, or the whole key when the key
has no `'/'`, unchanged (no trimming, no case change). -/
theorem fqdn_total_verbatim (key : String) :
    Split key ≠ [] ∧
    (Split key).length - 1 < (Split key).length ∧
    (∃ h, (Split key)[(Split key).length - 1]? = some h ∧ fqdnOf key = some h) ∧
    (∀ pre suf : String, key = pre ++ "/" ++ suf → '/' ∉ suf.data →
      fqdnOf key = some suf) ∧
    ('/' ∉ key.data → fqdnOf key = some key) ∧
    fqdnOf "rf/heartbeat/x/host-a" = some "host-a" ∧
    fqdnOf "" = some "" ∧
    fqdnOf "badpath" = some "badpath" ∧
    fqdnOf "rf/heartbeat/ Host-A " = some " Host-A " := by
  have hne : Split key ≠ [] := by
    simp [Split, splitSlash_ne_nil]
  refine ⟨hne, ?_, ?_, ?_, ?_, by decide, by decide, by decide, by decide⟩
  · have : 0 < (Split key).length := List.length_pos.mpr hne
    omega
  · obtain ⟨h, hh⟩ := fqdnOf_isSome key
    exact ⟨h, hh, hh⟩
  · intro pre suf hkey hsuf
    rw [fqdnOf_eq_getLast?, hkey]
    have hd : (pre ++ "/" ++ suf).data = pre.data ++ '/' :: suf.data := by
      simp [String.data_append]
    rw [hd, getLast?_splitSlash_append pre.data suf.data hsuf]
    rfl
  · intro hkey
    rw [fqdnOf_eq_getLast?, splitSlash_of_not_mem key.data hkey]
    rfl

/-- C9 at a concrete key: `rf/heartbeat/x/host-a` is `rf/heartbeat/x`, a
slash and `host-a`, and `host-a` has no slash. -/
theorem fqdn_total_verbatim_witness :
    fqdnOf ("rf/heartbeat/x" ++ "/" ++ "host-a") = some "host-a" :=
  (fqdn_total_verbatim ("rf/heartbeat/x" ++ "/" ++ "host-a")).2.2.2.1
    "rf/heartbeat/x" "host-a" rfl (by decide)

/-- C3: a decode error is isolated.  When the payload of an event fails to
decode, the event branch leaves the registry exactly as it was, `exit` stays
false, and the loop goes on with the next `select` from the same state. -/
theorem decode_error_isolated (unmarshal : String → Option Heartbeat)
    (services : Registry) (ev : Event) (h : unmarshal ev.Body = none) :
    onEvent unmarshal services ev = some services ∧
    iteration unmarshal { services := services, exit := false } (Select.ev ev) =
      some { services := services, exit := false } ∧
    ∀ ws, loop unmarshal { services := services, exit := false } (Select.ev ev :: ws) =
      loop unmarshal { services := services, exit := false } ws := by
  obtain ⟨fqdn, hf⟩ := fqdnOf_isSome ev.RoutingKey
  have h1 : onEvent unmarshal services ev = some services := by
    rw [onEvent_of_fqdn unmarshal services ev fqdn hf, h]
  have h2 : iteration unmarshal { services := services, exit := false } (Select.ev ev) =
      some { services := services, exit := false } := by
    simp [iteration, h1]
  refine ⟨h1, h2, fun ws => ?_⟩
  simp [loop, h2]

/-- C3 at a concrete input: a body that is no heartbeat record, received
while `web` is already known from `host-b`. -/
theorem decode_error_isolated_witness :
    sampleUnmarshal "not json" = none ∧
    iteration sampleUnmarshal { services := [("web", [("host-b", true)])], exit := false }
        (Select.ev { RoutingKey := "rf/heartbeat/x/host-a", Body := "not json" }) =
      some { services := [("web", [("host-b", true)])], exit := false } :=
  ⟨by decide,
   (decode_error_isolated sampleUnmarshal [("web", [("host-b", true)])]
      { RoutingKey := "rf/heartbeat/x/host-a", Body := "not json" } (by decide)).2.1⟩

/-- C7: idempotent insert.  Processing an event always gives a registry, and
processing the same event again gives that same registry; in particular the
path `rf/heartbeat/x/host-a` with services `web`, delivered twice from the
empty registry, gives `web` with the single host `host-a`. -/
theorem insert_idempotent (unmarshal : String → Option Heartbeat) :
    (∀ (r : Registry) (e : Event),
      ∃ r1, onEvent unmarshal r e = some r1 ∧ onEvent unmarshal r1 e = some r1) ∧
    (∀ (r : Registry) (e : Event),
      foldEvents unmarshal r [e, e] = foldEvents unmarshal r [e]) ∧
    (∀ body : String, unmarshal body = some { Services := ["web"] } →
      foldEvents unmarshal []
        [{ RoutingKey := "rf/heartbeat/x/host-a", Body := body },
         { RoutingKey := "rf/heartbeat/x/host-a", Body := body }] =
        some [("web", [("host-a", true)])]) := by
  have key : ∀ (r : Registry) (e : Event),
      ∃ r1, onEvent unmarshal r e = some r1 ∧ onEvent unmarshal r1 e = some r1 := by
    intro r e
    obtain ⟨fqdn, hf⟩ := fqdnOf_isSome e.RoutingKey
    cases hu : unmarshal e.Body with
    | none =>
      refine ⟨r, ?_, ?_⟩ <;> rw [onEvent_of_fqdn unmarshal r e fqdn hf, hu]
    | some hb =>
      refine ⟨hb.Services.foldl (announce fqdn) r, ?_, ?_⟩
      · rw [onEvent_of_fqdn unmarshal r e fqdn hf, hu]
      · rw [onEvent_of_fqdn unmarshal _ e fqdn hf, hu]
        simp only
        rw [foldl_announce_of_present]
        intro k hk
        rw [mapGet_foldl_announce]
        cases mapGet r k <;> simp [hk]
  refine ⟨key, ?_, ?_⟩
  · intro r e
    obtain ⟨r1, h1, h2⟩ := key r e
    simp [foldEvents, h1, h2]
  · intro body hb
    have hf : fqdnOf "rf/heartbeat/x/host-a" = some "host-a" := by decide
    simp [foldEvents, onEvent, hf, hb, announce, mapGet, mapSet]

/-- C7 with the sample decoder: the same `web` heartbeat of `host-a` twice. -/
theorem insert_idempotent_witness :
    foldEvents sampleUnmarshal []
      [{ RoutingKey := "rf/heartbeat/x/host-a", Body := webBody },
       { RoutingKey := "rf/heartbeat/x/host-a", Body := webBody }] =
      some [("web", [("host-a", true)])] :=
  (insert_idempotent sampleUnmarshal).2.2 webBody (by decide)

/-- C8: the registry never shrinks.  Whatever the event (valid, short path or
undecodable), processing it gives a registry in which every service present
before is still present with the host set it had, so every host of that set
is still in it. -/
theorem registry_never_shrinks (unmarshal : String → Option Heartbeat)
    (services : Registry) (ev : Event) :
    ∃ services', onEvent unmarshal services ev = some services' ∧
      (∀ s hosts, mapGet services s = some hosts →
        ∃ hosts', mapGet services' s = some hosts' ∧
          ∀ h, (mapGet hosts h).isSome = true → (mapGet hosts' h).isSome = true) ∧
      (∀ s h, hasHost services s h = true → hasHost services' s h = true) := by
  obtain ⟨services', h⟩ := onEvent_total unmarshal services ev
  refine ⟨services', h, ?_, ?_⟩
  · intro s hosts hs
    exact ⟨hosts, mapGet_onEvent_of_present unmarshal services services' ev s hosts h hs,
      fun _ hh => hh⟩
  · intro s h' hh
    unfold hasHost at hh ⊢
    cases hs : mapGet services s with
    | none => simp [hs] at hh
    | some hosts =>
      rw [mapGet_onEvent_of_present unmarshal services services' ev s hosts h hs]
      simpa [hs] using hh

/-- C10: first announcer wins.  Folding any sequence of events from the empty
registry gives a registry whose entry for a service name is the one-host set
of the first event of the sequence that decodes and has that name as a key
(no entry when there is no such event).  The one host is the last path
segment of that event: the text after the last `'/'` of its routing key, the
whole key when it has none.  An event processed afterwards leaves the host
set of an already known service as it is; so when `host-a` and then `host-b`
announce `web`, the registry is `web` with the single host `host-a`. -/
theorem first_announcer_wins (unmarshal : String → Option Heartbeat) (evs : List Event) :
    ∃ r, foldEvents unmarshal [] evs = some r ∧
      (∀ s, mapGet r s = (evs.find? (announces unmarshal s)).bind firstHosts) ∧
      (∀ s, mapGet r s =
        (evs.find? (announces unmarshal s)).map
          (fun e => [(afterLastSlash e.RoutingKey, true)])) ∧
      (∀ s hosts, mapGet r s = some hosts →
        ∃ e h, evs.find? (announces unmarshal s) = some e ∧
          fqdnOf e.RoutingKey = some h ∧ hosts = [(h, true)] ∧
          h = afterLastSlash e.RoutingKey ∧
          (∀ pre suf : String, e.RoutingKey = pre ++ "/" ++ suf → '/' ∉ suf.data →
            h = suf) ∧
          ('/' ∉ e.RoutingKey.data → h = e.RoutingKey)) ∧
      (∀ s hosts e, mapGet r s = some hosts →
        ∃ r', onEvent unmarshal r e = some r' ∧ mapGet r' s = some hosts) ∧
      (∀ body : String, unmarshal body = some { Services := ["web"] } →
        foldEvents unmarshal []
          [{ RoutingKey := "rf/heartbeat/x/host-a", Body := body },
           { RoutingKey := "rf/heartbeat/y/host-b", Body := body }] =
          some [("web", [("host-a", true)])]) := by
  obtain ⟨r, hr, hget⟩ := mapGet_foldEvents unmarshal evs []
  have hget' : ∀ s, mapGet r s = (evs.find? (announces unmarshal s)).bind firstHosts := by
    intro s
    rw [hget s]
    rfl
  have hget2 : ∀ s, mapGet r s =
      (evs.find? (announces unmarshal s)).map
        (fun e => [(afterLastSlash e.RoutingKey, true)]) := by
    intro s
    rw [hget' s]
    cases evs.find? (announces unmarshal s) with
    | none => rfl
    | some e => simp [firstHosts, fqdnOf_eq_afterLastSlash]
  refine ⟨r, hr, hget', hget2, ?_, ?_, ?_⟩
  · intro s hosts hs
    rw [hget2 s] at hs
    cases hfind : evs.find? (announces unmarshal s) with
    | none => simp [hfind] at hs
    | some e =>
      simp [hfind] at hs
      refine ⟨e, afterLastSlash e.RoutingKey, rfl, fqdnOf_eq_afterLastSlash _, hs.symm,
        rfl, ?_, ?_⟩
      · intro pre suf hkey hsuf
        rw [hkey]
        exact afterLastSlash_append pre suf hsuf
      · intro hkey
        exact afterLastSlash_of_not_mem _ hkey
  · intro s hosts e hs
    obtain ⟨r', h'⟩ := onEvent_total unmarshal r e
    exact ⟨r', h', mapGet_onEvent_of_present unmarshal r r' e s hosts h' hs⟩
  · intro body hb
    have hfa : fqdnOf "rf/heartbeat/x/host-a" = some "host-a" := by decide
    have hfb : fqdnOf "rf/heartbeat/y/host-b" = some "host-b" := by decide
    simp [foldEvents, onEvent, hfa, hfb, hb, announce, mapGet, mapSet]

/-- C10 with the sample decoder: `host-a` and then `host-b` announce `web`;
the registry holds `web` with `host-a`, the text after the last slash of the
first routing key. -/
theorem first_announcer_wins_witness :
    afterLastSlash "rf/heartbeat/x/host-a" = "host-a" ∧
    foldEvents sampleUnmarshal []
      [{ RoutingKey := "rf/heartbeat/x/host-a", Body := webBody },
       { RoutingKey := "rf/heartbeat/y/host-b", Body := webBody }] =
      some [("web", [("host-a", true)])] := by
  refine ⟨by decide, ?_⟩
  obtain ⟨_, _, _, _, _, _, h⟩ := first_announcer_wins sampleUnmarshal []
  exact h webBody (by decide)

/-! ## The loop body at the inputs where it departs from the specification -/

/-- C1 at a failing input: `host-a` and then `host-b` announce `web`, both
events valid.  The fold keeps `host-a` only: `host-b` announced `web` and is
not in the host set of `web`. -/
theorem aggregation_drops_second_host :
    validEvent sampleUnmarshal { RoutingKey := "rf/heartbeat/x/host-a", Body := webBody } = true ∧
    validEvent sampleUnmarshal { RoutingKey := "rf/heartbeat/x/host-b", Body := webBody } = true ∧
    fqdnOf "rf/heartbeat/x/host-b" = some "host-b" ∧
    announces sampleUnmarshal "web"
      { RoutingKey := "rf/heartbeat/x/host-b", Body := webBody } = true ∧
    foldEvents sampleUnmarshal []
      [{ RoutingKey := "rf/heartbeat/x/host-a", Body := webBody },
       { RoutingKey := "rf/heartbeat/x/host-b", Body := webBody }] =
      some [("web", [("host-a", true)])] ∧
    hasHost [("web", [("host-a", true)])] "web" "host-b" = false := by
  decide

/-- C2 at a failing input: the routing key `badpath` splits into one segment,
yet the event is not skipped: from the empty registry its `web` payload is
registered under the host `badpath`.  The loop does stay running. -/
theorem short_path_not_skipped :
    (Split "badpath").length = 1 ∧
    iteration sampleUnmarshal initial (Select.ev { RoutingKey := "badpath", Body := webBody }) =
      some { services := [("web", [("badpath", true)])], exit := false } := by
  decide

/-- C6 at a failing input: `web` is already known from `host-b` when `host-a`
announces `web` and `db` in one valid event.  Afterwards `host-a` is in the
host set of `db` and not in the host set of `web`. -/
theorem known_service_rejects_new_host :
    validEvent sampleUnmarshal { RoutingKey := "rf/heartbeat/x/host-a", Body := webDbBody } = true ∧
    onEvent sampleUnmarshal [("web", [("host-b", true)])]
      { RoutingKey := "rf/heartbeat/x/host-a", Body := webDbBody } =
      some [("web", [("host-b", true)]), ("db", [("host-a", true)])] ∧
    hasHost [("web", [("host-b", true)]), ("db", [("host-a", true)])] "db" "host-a" = true ∧
    hasHost [("web", [("host-b", true)]), ("db", [("host-a", true)])] "web" "host-a" = false := by
  decide

end Redfox
